import Mathlib

/-!
Verification of the go-yaml-edit core: the rune-indexed multi-splice streaming
transformer (package `splice`) and the style-preserving YAML scalar re-quoter
(package `yamled`).

The repository sources available here contain the test-suites of both packages
(which pin concrete input/output pairs of `yamlString`, `quote`, the splice
transformer and `Peek`) together with the `atomicfile` helper; the bodies of
the core functions themselves are not among the sources.  Every definition
below whose doc comment starts with `Modelled from the spec:` is therefore a
shallow embedding reconstructed from the specification's algorithm
descriptions, kept consistent with the concrete expectations recorded in the
repository's own test files (`TestYamlString`, `TestQuote`, `TestOps`,
`TestPeek`, `TestEdit`, `TestBug1`).

Strings are modelled as `List Char`: a Go string is a UTF-8 byte sequence and
all span positions of the splice engine are rune (Unicode code point)
positions, so a list of runes is the natural carrier.  A separate UTF-8
encoder (`utf8Str`) is used where a claim contrasts rune positions with byte
positions.
-/

namespace YamlEdit

/-- A half-open interval of rune positions, `Span(start, stop)` in the Go API.
A zero-width span (`start = stop`) is an insertion cursor. -/
structure Span where
  start : Nat
  stop : Nat
deriving DecidableEq, Repr

/-- Modelled from the spec: an operation pairs a span with a replacement
string (`Span(a,b).With(r)`); an empty replacement is a deletion. -/
structure Op where
  span : Span
  repl : List Char
deriving DecidableEq, Repr

/-- Modelled from the spec: the normalization invariant of an op set at
cursor position `p` — ops sorted by start, `start ≤ stop` for each op, and no
two spans overlapping (touching allowed). -/
def chainOk : Nat → List Op → Bool
  | _, [] => true
  | p, op :: rest =>
    decide (p ≤ op.span.start) && decide (op.span.start ≤ op.span.stop) &&
      chainOk op.span.stop rest

/-- Ordering of ops by span start, used to normalize an op set. -/
def opLE (a b : Op) : Prop := a.span.start ≤ b.span.start

instance : DecidableRel opLE := fun a b => Nat.decLe a.span.start b.span.start

/-- Modelled from the spec: sorting of the op set by span start. -/
def sortOps (ops : List Op) : List Op := List.insertionSort opLE ops

/-- Modelled from the spec: one incremental step of the splice transformer.
The state is the list of pending ops plus the rune cursor `p`; the step
consumes one decoded rune `c` and emits output runes.  Copy mode copies the
rune, reaching an op's start emits its replacement, and inside a span runes
are discarded (a span being consumed is represented by a pending op whose
start is bumped past the consumed runes and whose replacement has already
been emitted, i.e. is empty). -/
def stepRune : List Op → Nat → Char → (List Op × Nat) × List Char
  | [], p, c => (([], p + 1), [c])
  | op :: rest, p, c =>
    if p < op.span.start then ((op :: rest, p + 1), [c])
    else if op.span.stop ≤ op.span.start then
      let r := stepRune rest p c
      (r.1, op.repl ++ r.2)
    else if p + 1 = op.span.stop then ((rest, p + 1), op.repl)
    else ((⟨⟨p + 1, op.span.stop⟩, []⟩ :: rest, p + 1), op.repl)

/-- Modelled from the spec: running the incremental transformer over a chunk
of source runes, threading the state and concatenating the emitted output. -/
def runRunes : List Op → Nat → List Char → (List Op × Nat) × List Char
  | ops, p, [] => ((ops, p), [])
  | ops, p, c :: s =>
    let x := stepRune ops p c
    let y := runRunes x.1.1 x.1.2 s
    (y.1, x.2 ++ y.2)

/-- Modelled from the spec: EOF handling.  A pending zero-width op whose
start equals the final rune count `p` is emitted; any other pending op fails
with `span out of range`. -/
def finish (p : Nat) : List Op → Except String (List Char)
  | [] => .ok []
  | op :: rest =>
    if op.span.start = p ∧ op.span.stop = p then
      (finish p rest).map (op.repl ++ ·)
    else .error "span out of range"

/-- Reference (single-shot) form of the splice algorithm: recursion over the
pending ops, copying runes before a span, emitting the replacement at the
span start and discarding the span's runes. -/
def dropRunes : Nat → List Char → Option (List Char)
  | 0, s => some s
  | _ + 1, [] => none
  | n + 1, _ :: s => dropRunes n s

/-- Modelled from the spec: the single-shot splice recursion (design-level
algorithm of section 4.B, steps 2–4). -/
def runOps : List Op → Nat → List Char → Except String (List Char)
  | [], _, s => .ok s
  | op :: rest, p, s =>
    if p < op.span.start then
      match s with
      | [] => .error "span out of range"
      | c :: s1 => (runOps (op :: rest) (p + 1) s1).map (c :: ·)
    else
      match dropRunes (op.span.stop - p) s with
      | none => .error "span out of range"
      | some s1 => (runOps rest op.span.stop s1).map (op.repl ++ ·)
termination_by ops _ s => (ops.length, s.length)

/-- Modelled from the spec: the transformer `T(ops...)` applied in a single
shot to the whole source.  Construction rejects op sets that are overlapping
or inverted after sorting. -/
def transform (ops : List Op) (s : List Char) : Except String (List Char) :=
  let so := sortOps ops
  if chainOk 0 so then
    let x := runRunes so 0 s
    (finish x.1.2 x.1.1).map (x.2 ++ ·)
  else .error "overlapping spans"

/-- Modelled from the spec: the chunked incremental run — the caller feeds
the source in successive chunks, the transformer state is carried across
chunk boundaries, and EOF handling runs after the last chunk. -/
def runChunks : List Op → Nat → List (List Char) → (List Op × Nat) × List Char
  | ops, p, [] => ((ops, p), [])
  | ops, p, c :: cs =>
    let x := runRunes ops p c
    let y := runChunks x.1.1 x.1.2 cs
    (y.1, x.2 ++ y.2)

/-- Modelled from the spec: the transformer driven by chunked source input. -/
def chunkedTransform (ops : List Op) (css : List (List Char)) :
    Except String (List Char) :=
  let so := sortOps ops
  if chainOk 0 so then
    let x := runChunks so 0 css
    (finish x.1.2 x.1.1).map (x.2 ++ ·)
  else .error "overlapping spans"

/-- Delivery of the produced output through a destination buffer of size `d`:
the output is handed to the caller in pieces of at most `d` runes. -/
def dstChunks (d : Nat) : List Char → List (List Char)
  | [] => []
  | c :: rest => (c :: rest.take (d - 1)) :: dstChunks d (rest.drop (d - 1))
termination_by l => l.length
decreasing_by
  simp only [List.length_cons]
  exact Nat.lt_succ_of_le (List.length_drop .. ▸ Nat.sub_le _ _)

/-- The output of a successful transform (empty on error), used to state
destination-buffer invariance without a binder. -/
def outOf : Except String (List Char) → List Char
  | .ok o => o
  | .error _ => []

instance {ε α : Type} [DecidableEq ε] [DecidableEq α] : DecidableEq (Except ε α) :=
  fun a b =>
    match a, b with
    | .ok x, .ok y => decidable_of_iff (x = y) (by simp)
    | .error x, .error y => decidable_of_iff (x = y) (by simp)
    | .ok _, .error _ => isFalse (by simp)
    | .error _, .ok _ => isFalse (by simp)

/-! ## Peek -/

/-- Pairing of list elements with their position in the caller's argument
list, so that results of the internally sorted pass can be re-ordered. -/
def withIdx (i : Nat) : List α → List (Nat × α)
  | [] => []
  | a :: l => (i, a) :: withIdx (i + 1) l

/-- Ordering of indexed selections by span start. -/
def selLE (a b : Nat × Span) : Prop := a.2.start ≤ b.2.start

instance : DecidableRel selLE := fun a b => Nat.decLe a.2.start b.2.start

/-- Modelled from the spec: the single pass of `Peek` over the source stream.
`pos` is the rune cursor, `rem` the unread rest of the stream; spans must
arrive sorted and non-overlapping, each span's slice is cut out of the stream
as the cursor passes it. -/
def peekGo : Nat → List Char → List (Nat × Span) → Option (List (Nat × List Char))
  | _, _, [] => some []
  | pos, rem, (i, sp) :: rest =>
    if sp.start < pos then none
    else if sp.stop < sp.start then none
    else
      let rem1 := rem.drop (sp.start - pos)
      if rem1.length < sp.stop - sp.start then none
      else
        match peekGo sp.stop (rem1.drop (sp.stop - sp.start)) rest with
        | some xs => some ((i, rem1.take (sp.stop - sp.start)) :: xs)
        | none => none

/-- Association lookup used to restore the caller's order of `Peek` results. -/
def lookupIdx (k : Nat) : List (Nat × α) → Option α
  | [] => none
  | (k1, a) :: rest => if k1 = k then some a else lookupIdx k rest

/-- Modelled from the spec: `Peek(reader, spans...)` reads the source once —
the spans are sorted internally, the slices are collected in a single pass and
then re-ordered to match the caller's input order. -/
def peek (s : List Char) (sels : List Span) : Except String (List (List Char)) :=
  match peekGo 0 s (List.insertionSort selLE (withIdx 0 sels)) with
  | some pairs =>
    .ok ((List.range sels.length).map (fun k => (lookupIdx k pairs).getD []))
  | none => .error "span out of range"

/-- The source text covered by a span: runes `start` to `stop - 1`. -/
def sliceSel (s : List Char) (sp : Span) : List Char :=
  (s.drop sp.start).take (sp.stop - sp.start)

/-- Well-formedness of a sorted selection list over a source of `n` runes:
spans chained without overlap and all inside the source. -/
def selOk : Nat → Nat → List (Nat × Span) → Bool
  | _, _, [] => true
  | p, n, x :: rest =>
    decide (p ≤ x.2.start) && decide (x.2.start ≤ x.2.stop) &&
      decide (x.2.stop ≤ n) && selOk x.2.stop n rest

/-! ## UTF-8 encoding (for the rune-vs-byte distinction) -/

/-- Standard UTF-8 encoding of one code point, as a list of byte values. -/
def utf8Char (c : Char) : List Nat :=
  let n := c.toNat
  if n < 0x80 then [n]
  else if n < 0x800 then [0xC0 + n / 64, 0x80 + n % 64]
  else if n < 0x10000 then
    [0xE0 + n / 4096, 0x80 + n / 64 % 64, 0x80 + n % 64]
  else
    [0xF0 + n / 262144, 0x80 + n / 4096 % 64, 0x80 + n / 64 % 64, 0x80 + n % 64]

/-- UTF-8 encoding of a rune sequence. -/
def utf8Str (s : List Char) : List Nat := (s.map utf8Char).flatten

/-- Splicing performed (incorrectly) at byte granularity, used to contrast
with the rune-indexed transformer. -/
def byteSplice (bs : List Nat) (i j : Nat) (r : List Nat) : List Nat :=
  bs.take i ++ r ++ bs.drop j

/-! ## Line structure helpers for the quoter -/

/-- Helper for `myLines`: push a character onto the first line. -/
def consHead (c : Char) : List (List Char) → List (List Char)
  | [] => [[c]]
  | l :: ls => (c :: l) :: ls

/-- Split a rune sequence into lines at newline characters, Go
`strings.Split(s, "\n")` semantics: `myLines "a\n" = ["a", ""]` and
`myLines "" = [""]`. -/
def myLines : List Char → List (List Char)
  | [] => [[]]
  | c :: s => if c = '\n' then [] :: myLines s else consHead c (myLines s)

/-- Join lines with newline separators, inverse of `myLines`. -/
def myUnlines : List (List Char) → List Char
  | [] => []
  | [l] => l
  | l :: ls => l ++ '\n' :: myUnlines ls

/-- A run of `n` spaces. -/
def spaces (n : Nat) : List Char := List.replicate n ' '

/-- The width of a line's leading run of spaces. -/
def leadingSpaces (l : List Char) : Nat := (l.takeWhile (fun c => c = ' ')).length

/-- Modelled from the spec: indent one block-scalar content line — non-empty
lines are prefixed by the block indent, interior blank lines stay empty. -/
def indentLine (w : Nat) (l : List Char) : List Char :=
  if l = [] then [] else spaces w ++ l

/-- Remove up to `w` leading spaces from a line (block-scalar de-indentation). -/
def dropIndent : Nat → List Char → List Char
  | 0, l => l
  | _ + 1, [] => []
  | n + 1, c :: l => if c = ' ' then dropIndent n l else c :: l

/-! ## YAML scalar classification -/

/-- The parsed tag a scalar resolves to under the modelled core schema. -/
inductive YTag where
  | str
  | int
  | float
  | bool
  | null
deriving DecidableEq, Repr

/-- Optional leading sign of a numeric scalar. -/
def dropSign : List Char → List Char
  | '+' :: r => r
  | '-' :: r => r
  | s => s

/-- Integer-shaped scalar: optional sign then one or more digits. -/
def isIntStr (s : List Char) : Bool :=
  let d := dropSign s
  decide (d ≠ []) && d.all Char.isDigit

/-- Float-shaped scalar: optional sign, digits with exactly one dot and at
least one digit overall (covers `1.0`, `1.`, `.5`; rejects `1.0.0`). -/
def isFloatStr (s : List Char) : Bool :=
  let d := dropSign s
  let intPart := d.takeWhile Char.isDigit
  match d.drop intPart.length with
  | '.' :: rest =>
    rest.all Char.isDigit && (decide (intPart ≠ []) || decide (rest ≠ []))
  | _ => false

/-- Modelled from the spec: the YAML boolean words the quoter must guard
against (YAML 1.1 style, per the spec's numeric-looking disambiguation). -/
def boolWords : List (List Char) :=
  ["true", "True", "TRUE", "false", "False", "FALSE", "yes", "Yes", "YES",
    "no", "No", "NO", "on", "On", "ON", "off", "Off", "OFF"].map String.toList

/-- Modelled from the spec: the null words (and the empty scalar). -/
def nullWords : List (List Char) :=
  ["", "~", "null", "Null", "NULL"].map String.toList

/-- Modelled from the spec: the tag a plain (unquoted) scalar would resolve
to under the modelled schema. -/
def plainTag (s : List Char) : YTag :=
  if s ∈ nullWords then .null
  else if s ∈ boolWords then .bool
  else if isIntStr s then .int
  else if isFloatStr s then .float
  else .str

/-- Modelled from the spec: the indicator characters that forbid a plain
scalar when they appear first (section 4.D, rule 1). -/
def indicatorChar (c : Char) : Bool :=
  c ∈ ['@', '%', '&', '*', '!', '|', '>', '#', ',', '[', ']', '{', '}',
    '\'', '"', '\x60']

/-- Does the string contain the two-character sequence space-then-hash, which
would start a comment inside a plain scalar? -/
def hasSpaceHash : List Char → Bool
  | [] => false
  | c :: r => (c = ' ' && r.head? = some '#') || hasSpaceHash r

/-- Modelled from the spec: syntactic safety of a plain scalar — non-empty,
single-line, no leading indicator, no leading or trailing space (a plain
parse strips those, so they must force quoting for round-tripping, as the
repository's `TestEdit` requires for the value made of a single space), and
no comment-starting space-hash sequence. -/
def plainSafe (s : List Char) : Bool :=
  match s with
  | [] => false
  | c :: _ =>
    !indicatorChar c && decide (c ≠ ' ') && decide (s.getLast? ≠ some ' ') &&
      decide ('\n' ∉ s) && !hasSpaceHash s

/-- Can the string be emitted as a plain scalar and parse back to itself with
tag `!!str`?  The empty string counts: it is emitted as nothing and parses as
an empty `!!null` scalar, which still carries the empty value. -/
def plainValue (s : List Char) : Bool :=
  decide (s = []) || (plainSafe s && decide (plainTag s = .str))

/-! ## Scalar emission -/

/-- Double-quote escaping: backslash and double quote are escaped. -/
def dqEscape : List Char → List Char
  | [] => []
  | c :: r => if c = '"' ∨ c = '\\' then '\\' :: c :: dqEscape r else c :: dqEscape r

/-- Emission of a double-quoted scalar. -/
def dqEmit (s : List Char) : List Char := '"' :: (dqEscape s ++ ['"'])

/-- Single-quote escaping: a quote is doubled. -/
def sqEscape : List Char → List Char
  | [] => []
  | c :: r => if c = '\'' then '\'' :: '\'' :: sqEscape r else c :: sqEscape r

/-- Emission of a single-quoted scalar. -/
def sqEmit (s : List Char) : List Char := '\'' :: (sqEscape s ++ ['\''])

/-- Is the last rune a newline? -/
def endsNL (s : List Char) : Bool := s.getLast? = some '\n'

/-- Modelled from the spec: the chomping header of a block literal — strip
(`|-`) when the value has no trailing newline, clip (`|`) for exactly one,
keep (`|+`) for two or more (section 4.D, rule 3). -/
def blockHeader (s : List Char) : List Char :=
  if !endsNL s then ['|', '-']
  else if endsNL s.dropLast then ['|', '+'] else ['|']

/-- Modelled from the spec: the content written into the block body — the
value with one trailing newline (if any) dropped, since the document context
after the replaced scalar supplies the final line break
(`TestYamlString`: `"a\n" ↦ "|\n  a"`, `"a\n\n" ↦ "|+\n  a\n"`). -/
def blockContent (s : List Char) : List Char :=
  if endsNL s then s.dropLast else s

/-- Modelled from the spec: block-literal emission at content width `w` —
header, then each non-empty content line prefixed by `w` spaces. -/
def blockLit (s : List Char) (w : Nat) : List Char :=
  blockHeader s ++ '\n' :: myUnlines ((myLines (blockContent s)).map (indentLine w))

/-- Modelled from the spec: `yamlString(value, width)` chooses the least
intrusive scalar style — plain when syntactically safe and untyped, block
literal for multi-line values, double quotes when a plain form would re-tag
(`"1"`, `"1.0"`, `true`), single quotes when only the syntax (indicator or
comment) forbids plain (`'@a'`, `'a #b'`), matching `TestYamlString`.  The
width argument is the exact column of the block content (the caller passes
`indent + 2`). -/
def yamlString (s : List Char) (w : Nat) : List Char :=
  if s = [] then []
  else if '\n' ∈ s then blockLit s w
  else if !plainSafe s then sqEmit s
  else if plainTag s ≠ .str then dqEmit s
  else s

/-! ## The style-preserving re-quoter -/

/-- Strip the leading spaces used only to locate the first non-space
character of the original scalar text. -/
def stripLS (s : List Char) : List Char := s.dropWhile (fun c => c = ' ')

/-- The text between the opening and closing quote of a quoted original. -/
def stripQuotes (s : List Char) : List Char := (s.drop 1).dropLast

/-- Reverse of `dqEscape`, to recover the original double-quoted content. -/
def dqUnescape : List Char → List Char
  | [] => []
  | [c] => [c]
  | c :: d :: r => if c = '\\' then d :: dqUnescape r else c :: dqUnescape (d :: r)

/-- Reverse of `sqEscape`, to recover the original single-quoted content. -/
def sqUnescape : List Char → List Char
  | [] => []
  | [c] => [c]
  | c :: d :: r =>
    if c = '\'' ∧ d = '\'' then '\'' :: sqUnescape r else c :: sqUnescape (d :: r)

/-- Modelled from the spec: the indent width of the first content line of an
original block scalar (the line after the `|`/`>` header line); zero when
there is none. -/
def oldContentIndent (old : List Char) : Nat :=
  match ((myLines old).drop 1).find? (fun l => !l.isEmpty) with
  | some l => leadingSpaces l
  | none => 0

/-- Modelled from the spec: the block content width used when replacing an
original block scalar — the original block's own content indent column when
it is visible, the default `indent + 2` otherwise (`TestQuote` cases 11–14,
`TestBug1`). -/
def blockWidth (old : List Char) (indent : Nat) : Nat :=
  if oldContentIndent old = 0 then indent + 2 else oldContentIndent old

/-- Modelled from the spec: `quote(new_value, original_text, indent)` —
classify the original by its first non-space character and keep its quoting
family when both the new value and the original's content could have been
written plain without re-tagging (so the original quotes were stylistic, not
semantic); original block scalars keep their content indent column; plain
originals stay plain exactly when the new value is syntactically safe and
resolves to the same tag; everything else falls back to
`yamlString(new_value, indent + 2)`.  Matches every case of `TestQuote`. -/
def quote (s old : List Char) (indent : Nat) : List Char :=
  let t := stripLS old
  match t.head? with
  | some '"' =>
    if plainValue s && plainValue (dqUnescape (stripQuotes t)) then dqEmit s
    else yamlString s (indent + 2)
  | some '\'' =>
    if plainValue s && plainValue (sqUnescape (stripQuotes t)) then sqEmit s
    else yamlString s (indent + 2)
  | some '|' =>
    if '\n' ∈ s then blockLit s (blockWidth t indent)
    else yamlString s (indent + 2)
  | some '>' =>
    if '\n' ∈ s then blockLit s (blockWidth t indent)
    else yamlString s (indent + 2)
  | _ =>
    if plainSafe s && decide (plainTag s = plainTag t) then s
    else yamlString s (indent + 2)

/-! ## A YAML scalar-document parser

The YAML parser itself is an external collaborator of the repository
(section 1, "Deliberately out of scope"), so to state the round-trip
properties it is modelled here for standalone scalar documents: the empty
document, double- and single-quoted scalars, literal block scalars with
chomping, and plain scalars with comment cutting, space trimming and
implicit tag resolution via `plainTag`.  A final line that the input ends
without a newline is treated as implicitly break-terminated (the usual
lenient end-of-stream handling). -/

/-- Chomping modes of a block scalar. -/
inductive Chomp where
  | strip
  | clip
  | keep
deriving DecidableEq, Repr

/-- Remove every trailing newline. -/
def dropTrailingNLs (s : List Char) : List Char :=
  (s.reverse.dropWhile (fun c => c = '\n')).reverse

/-- Apply a chomping mode to the de-indented block content (with the final
content line implicitly break-terminated at end of input). -/
def applyChomp : Chomp → List Char → List Char
  | .strip, raw => dropTrailingNLs raw
  | .clip, raw =>
    let c := dropTrailingNLs raw
    if c = [] then [] else c ++ ['\n']
  | .keep, raw => if raw = [] ∨ endsNL raw then raw else raw ++ ['\n']

/-- Split at the first newline: `(line, rest-after-the-newline)`. -/
def splitFirstNL : List Char → List Char × List Char
  | [] => ([], [])
  | c :: s =>
    if c = '\n' then ([], s)
    else
      let r := splitFirstNL s
      (c :: r.1, r.2)

/-- The indent of the first non-empty line, used for block indentation
detection. -/
def firstContentIndent (ls : List (List Char)) : Nat :=
  match ls.find? (fun l => !l.isEmpty) with
  | some l => leadingSpaces l
  | none => 0

/-- Parse the part of a literal block scalar after the `|` indicator:
chomping header on the indicator line, indentation detection from the first
non-empty content line, de-indentation, chomping. -/
def parseBlock (rest : List Char) : List Char × YTag :=
  let hb := splitFirstNL rest
  let chomp : Chomp :=
    if hb.1 = ['-'] then .strip else if hb.1 = ['+'] then .keep else .clip
  let ls := myLines hb.2
  let w := firstContentIndent ls
  (applyChomp chomp (myUnlines (ls.map (dropIndent w))), .str)

/-- Remove the part of a plain line starting at a space-hash comment. -/
def cutComment : List Char → List Char
  | [] => []
  | c :: r => if c = ' ' ∧ r.head? = some '#' then [] else c :: cutComment r

/-- Trim leading and trailing spaces of a plain scalar. -/
def trimSpaces (s : List Char) : List Char :=
  ((s.dropWhile (fun c => c = ' ')).reverse.dropWhile (fun c => c = ' ')).reverse

/-- Modelled from the spec: parsing a standalone YAML scalar document into
its value and resolved tag.  An empty document is an empty `!!null` scalar. -/
def parseScalarDoc (d : List Char) : List Char × YTag :=
  if d = [] then ([], .null)
  else if d.head? = some '"' then (dqUnescape (d.drop 1).dropLast, .str)
  else if d.head? = some '\'' then (sqUnescape (d.drop 1).dropLast, .str)
  else if d.head? = some '|' then parseBlock (d.drop 1)
  else
    let v := trimSpaces (cutComment d)
    (v, plainTag v)

/-- Does the first non-empty line of the value start with a non-space
character?  When it does not, the block emission's indentation detection on
re-parse attributes the leading spaces to the block indent. -/
def firstLineOk (v : List Char) : Bool :=
  match (myLines v).find? (fun l => !l.isEmpty) with
  | some l => decide (l.head? ≠ some ' ')
  | none => true

/-- Does the value end with two or more newlines (the keep-chomping range)? -/
def twoTrailingNL (v : List Char) : Bool := endsNL v && endsNL v.dropLast

/-! ## Lemmas: the incremental machine refines the single-shot recursion -/

theorem exceptMap_append_append (a b : List Char) (e : Except String (List Char)) :
    (e.map (b ++ ·)).map (a ++ ·) = e.map ((a ++ b) ++ ·) := by
  cases e <;> simp [Except.map, List.append_assoc]

theorem exceptMap_cons_append (c : Char) (b : List Char) (e : Except String (List Char)) :
    (e.map (b ++ ·)).map (c :: ·) = e.map ((c :: b) ++ ·) := by
  cases e <;> simp [Except.map]

theorem exceptMap_nil_append (e : Except String (List Char)) :
    e.map (fun t => [] ++ t) = e := by
  cases e <;> simp [Except.map]

theorem runRunes_nilops (p : Nat) (s : List Char) :
    runRunes [] p s = (([], p + s.length), s) := by
  induction s generalizing p with
  | nil => simp [runRunes]
  | cons c s ih => simp [runRunes, stepRune, ih]; omega

theorem runRunes_append (ops : List Op) (p : Nat) (a b : List Char) :
    runRunes ops p (a ++ b) =
      ((runRunes (runRunes ops p a).1.1 (runRunes ops p a).1.2 b).1,
        (runRunes ops p a).2 ++
          (runRunes (runRunes ops p a).1.1 (runRunes ops p a).1.2 b).2) := by
  induction a generalizing ops p with
  | nil => simp [runRunes]
  | cons c a ih => simp [runRunes, ih, List.append_assoc]

theorem runChunks_eq_join (ops : List Op) (p : Nat) (css : List (List Char)) :
    runChunks ops p css = runRunes ops p css.flatten := by
  induction css generalizing ops p with
  | nil => simp [runChunks, runRunes]
  | cons c cs ih => simp [runChunks, ih, runRunes_append]

theorem runRunes_copy {op : Op} {rest : List Op} {p : Nat} {c : Char} {s : List Char}
    (h : p < op.span.start) :
    runRunes (op :: rest) p (c :: s) =
      ((runRunes (op :: rest) (p + 1) s).1, c :: (runRunes (op :: rest) (p + 1) s).2) := by
  simp [runRunes, stepRune, h]

theorem runRunes_ins {op : Op} {rest : List Op} {p : Nat} {c : Char} {s : List Char}
    (h1 : ¬p < op.span.start) (h2 : op.span.stop ≤ op.span.start) :
    runRunes (op :: rest) p (c :: s) =
      ((runRunes rest p (c :: s)).1, op.repl ++ (runRunes rest p (c :: s)).2) := by
  simp [runRunes, stepRune, h1, h2, List.append_assoc]

theorem runRunes_last {op : Op} {rest : List Op} {p : Nat} {c : Char} {s : List Char}
    (h1 : ¬p < op.span.start) (h2 : ¬op.span.stop ≤ op.span.start)
    (h3 : p + 1 = op.span.stop) :
    runRunes (op :: rest) p (c :: s) =
      ((runRunes rest (p + 1) s).1, op.repl ++ (runRunes rest (p + 1) s).2) := by
  simp [runRunes, stepRune, h1, h2, h3]

theorem runRunes_mid {op : Op} {rest : List Op} {p : Nat} {c : Char} {s : List Char}
    (h1 : ¬p < op.span.start) (h2 : ¬op.span.stop ≤ op.span.start)
    (h3 : ¬p + 1 = op.span.stop) :
    runRunes (op :: rest) p (c :: s) =
      ((runRunes (⟨⟨p + 1, op.span.stop⟩, []⟩ :: rest) (p + 1) s).1,
        op.repl ++ (runRunes (⟨⟨p + 1, op.span.stop⟩, []⟩ :: rest) (p + 1) s).2) := by
  simp [runRunes, stepRune, h1, h2, h3]

theorem exceptMap_id (e : Except String (List Char)) :
    e.map (fun t : List Char => t) = e := by
  cases e <;> simp [Except.map]

theorem run_finish_eq_nil (ops : List Op) (p : Nat) (h : chainOk p ops = true) :
    finish p ops = runOps ops p [] := by
  induction ops generalizing p with
  | nil => simp [finish, runOps]
  | cons op rest ih =>
    simp only [chainOk, Bool.and_eq_true, decide_eq_true_eq] at h
    obtain ⟨⟨hp, hss⟩, hrest⟩ := h
    by_cases hlt : p < op.span.start
    · have hne : ¬(op.span.start = p ∧ op.span.stop = p) := by omega
      simp [finish, runOps, hlt, hne]
    · have hpe : op.span.start = p := by omega
      by_cases hz : op.span.stop ≤ op.span.start
      · have hz2 : op.span.stop = p := by omega
        have hd : op.span.stop - p = 0 := by omega
        rw [runOps]
        simp only [hlt, if_false, hd, dropRunes]
        have := ih op.span.stop hrest
        rw [hz2] at this
        simp [finish, hpe, hz2, this]
      · have hne : ¬(op.span.start = p ∧ op.span.stop = p) := by omega
        have hd : ∃ k, op.span.stop - p = k + 1 := ⟨op.span.stop - p - 1, by omega⟩
        obtain ⟨k, hk⟩ := hd
        rw [runOps]
        simp [finish, hlt, hne, hk, dropRunes]

theorem runOps_step_copy {op : Op} {rest : List Op} {p : Nat} {c : Char}
    {s : List Char} (h : p < op.span.start) :
    runOps (op :: rest) p (c :: s) = (runOps (op :: rest) (p + 1) s).map (c :: ·) := by
  rw [runOps.eq_def]
  simp [h]

theorem runOps_step_enter {op : Op} {rest : List Op} {p : Nat} {s : List Char}
    (h : ¬p < op.span.start) :
    runOps (op :: rest) p s =
      match dropRunes (op.span.stop - p) s with
      | none => Except.error "span out of range"
      | some s1 => (runOps rest op.span.stop s1).map (op.repl ++ ·) := by
  rw [runOps.eq_def]
  simp [h]

theorem run_finish_eq (ops : List Op) (p : Nat) (s : List Char)
    (h : chainOk p ops = true) :
    (finish (runRunes ops p s).1.2 (runRunes ops p s).1.1).map
        ((runRunes ops p s).2 ++ ·) =
      runOps ops p s := by
  match ops with
  | [] =>
    rw [runRunes_nilops]
    simp [finish, runOps, Except.map]
  | op :: rest =>
    have hchain0 := h
    simp only [chainOk, Bool.and_eq_true, decide_eq_true_eq] at h
    obtain ⟨⟨hp, hss⟩, hrest⟩ := h
    match s with
    | [] =>
      have hrun : runRunes (op :: rest) p [] = ((op :: rest, p), []) := by
        simp [runRunes]
      rw [hrun]
      show (finish p (op :: rest)).map (([] : List Char) ++ ·) =
        runOps (op :: rest) p []
      rw [run_finish_eq_nil (op :: rest) p hchain0]
      cases runOps (op :: rest) p [] <;> simp [Except.map]
    | c :: s1 =>
      by_cases hlt : p < op.span.start
      · have hchain : chainOk (p + 1) (op :: rest) = true := by
          simp only [chainOk, Bool.and_eq_true, decide_eq_true_eq]
          exact ⟨⟨by omega, hss⟩, hrest⟩
        have ih := run_finish_eq (op :: rest) (p + 1) s1 hchain
        rw [runRunes_copy hlt, runOps_step_copy hlt]
        show (finish (runRunes (op :: rest) (p + 1) s1).1.2
              (runRunes (op :: rest) (p + 1) s1).1.1).map
            ((c :: (runRunes (op :: rest) (p + 1) s1).2) ++ ·) =
          (runOps (op :: rest) (p + 1) s1).map (c :: ·)
        rw [← ih]
        cases finish (runRunes (op :: rest) (p + 1) s1).1.2
            (runRunes (op :: rest) (p + 1) s1).1.1 <;>
          simp [Except.map]
      · by_cases hz : op.span.stop ≤ op.span.start
        · have hz2 : op.span.stop = p := by omega
          have hchain : chainOk p rest = true := by rw [← hz2]; exact hrest
          have ih := run_finish_eq rest p (c :: s1) hchain
          rw [runRunes_ins hlt hz, runOps_step_enter hlt]
          have hd : op.span.stop - p = 0 := by omega
          rw [hd]
          show (finish (runRunes rest p (c :: s1)).1.2
                (runRunes rest p (c :: s1)).1.1).map
              ((op.repl ++ (runRunes rest p (c :: s1)).2) ++ ·) =
            (runOps rest op.span.stop (c :: s1)).map (op.repl ++ ·)
          rw [hz2, ← ih]
          cases finish (runRunes rest p (c :: s1)).1.2
              (runRunes rest p (c :: s1)).1.1 <;>
            simp [Except.map, List.append_assoc]
        · by_cases hone : p + 1 = op.span.stop
          · have hchain : chainOk (p + 1) rest = true := by rw [hone]; exact hrest
            have ih := run_finish_eq rest (p + 1) s1 hchain
            rw [runRunes_last hlt hz hone, runOps_step_enter hlt]
            have hd : op.span.stop - p = 1 := by omega
            rw [hd]
            show (finish (runRunes rest (p + 1) s1).1.2
                  (runRunes rest (p + 1) s1).1.1).map
                ((op.repl ++ (runRunes rest (p + 1) s1).2) ++ ·) =
              (runOps rest op.span.stop s1).map (op.repl ++ ·)
            rw [← hone, ← ih]
            cases finish (runRunes rest (p + 1) s1).1.2
                (runRunes rest (p + 1) s1).1.1 <;>
              simp [Except.map, List.append_assoc]
          · have hchain : chainOk (p + 1) (⟨⟨p + 1, op.span.stop⟩, []⟩ :: rest) = true := by
              simp only [chainOk, Bool.and_eq_true, decide_eq_true_eq]
              exact ⟨⟨by omega, by omega⟩, hrest⟩
            have ih := run_finish_eq (⟨⟨p + 1, op.span.stop⟩, []⟩ :: rest) (p + 1) s1 hchain
            rw [runOps_step_enter (show ¬p + 1 < (⟨⟨p + 1, op.span.stop⟩, []⟩ : Op).span.start
              from by simp)] at ih
            rw [runRunes_mid hlt hz hone, runOps_step_enter hlt]
            have hd : ∃ k, op.span.stop - p = k + 1 ∧
                (⟨⟨p + 1, op.span.stop⟩, []⟩ : Op).span.stop -
                  (⟨⟨p + 1, op.span.stop⟩, []⟩ : Op).span.start = k :=
              ⟨op.span.stop - p - 1, ⟨by omega, by simp; omega⟩⟩
            obtain ⟨k, hk1, hk3⟩ := hd
            rw [hk3] at ih
            rw [hk1]
            show (finish (runRunes (⟨⟨p + 1, op.span.stop⟩, []⟩ :: rest) (p + 1) s1).1.2
                  (runRunes (⟨⟨p + 1, op.span.stop⟩, []⟩ :: rest) (p + 1) s1).1.1).map
                ((op.repl ++
                    (runRunes (⟨⟨p + 1, op.span.stop⟩, []⟩ :: rest) (p + 1) s1).2) ++ ·) =
              match dropRunes k s1 with
              | none => Except.error "span out of range"
              | some s2 => (runOps rest op.span.stop s2).map (op.repl ++ ·)
            cases hG : dropRunes k s1 with
            | none =>
              rw [hG] at ih
              simp only [] at ih ⊢
              cases hF : finish (runRunes (⟨⟨p + 1, op.span.stop⟩, []⟩ :: rest) (p + 1) s1).1.2
                  (runRunes (⟨⟨p + 1, op.span.stop⟩, []⟩ :: rest) (p + 1) s1).1.1 <;>
                simp [Except.map, hF] at ih ⊢
              exact ih
            | some s2 =>
              rw [hG] at ih
              simp only [List.nil_append] at ih
              rw [exceptMap_id] at ih
              simp only []
              rw [← ih]
              cases finish (runRunes (⟨⟨p + 1, op.span.stop⟩, []⟩ :: rest) (p + 1) s1).1.2
                  (runRunes (⟨⟨p + 1, op.span.stop⟩, []⟩ :: rest) (p + 1) s1).1.1 <;>
                simp [Except.map, List.append_assoc]
termination_by (ops.length, s.length)

theorem dropRunes_of_le (n : Nat) (s : List Char) (h : n ≤ s.length) :
    dropRunes n s = some (s.drop n) := by
  induction n generalizing s with
  | zero => simp [dropRunes]
  | succ n ih =>
    cases s with
    | nil => simp at h
    | cons c s =>
      simp only [List.length_cons, Nat.succ_le_succ_iff] at h
      simp [dropRunes, ih s h]

theorem dropRunes_of_gt (n : Nat) (s : List Char) (h : s.length < n) :
    dropRunes n s = none := by
  induction n generalizing s with
  | zero => simp at h
  | succ n ih =>
    cases s with
    | nil => simp [dropRunes]
    | cons c s =>
      simp only [List.length_cons] at h
      simp [dropRunes, ih s (by omega)]

theorem runOps_single (i j : Nat) (r : List Char) (s : List Char) (p : Nat)
    (h1 : p ≤ i) (h2 : i ≤ j) (h3 : j ≤ p + s.length) :
    runOps [⟨⟨i, j⟩, r⟩] p s = .ok (s.take (i - p) ++ r ++ s.drop (j - p)) := by
  induction s generalizing p with
  | nil =>
    have hi : i = p := by simp at h3; omega
    have hj : j = p := by simp at h3; omega
    rw [runOps_step_enter (by simp; omega)]
    simp only [hj, Nat.sub_self, dropRunes]
    simp [runOps, Except.map]
  | cons c s1 ih =>
    have h3' : j ≤ p + s1.length + 1 := by
      simp only [List.length_cons] at h3
      omega
    by_cases hlt : p < i
    · rw [runOps_step_copy (by simpa using hlt)]
      rw [ih (p + 1) (by omega) (by omega)]
      have hi : ∃ ki, i - p = ki + 1 ∧ i - (p + 1) = ki := ⟨i - p - 1, by omega, by omega⟩
      have hj : ∃ kj, j - p = kj + 1 ∧ j - (p + 1) = kj := ⟨j - p - 1, by omega, by omega⟩
      obtain ⟨ki, hki1, hki2⟩ := hi
      obtain ⟨kj, hkj1, hkj2⟩ := hj
      rw [hki1, hkj1, hki2, hkj2]
      simp [Except.map]
    · have hpe : p = i := by omega
      rw [runOps_step_enter (by simpa using hlt)]
      have hdrop : dropRunes (j - p) (c :: s1) = some ((c :: s1).drop (j - p)) :=
        dropRunes_of_le _ _ (by simp; omega)
      rw [hdrop]
      simp only [runOps, Except.map]
      rw [hpe]
      simp [Nat.sub_self]
      

theorem runOps_single_oob (a b : Nat) (r : List Char) (s : List Char) (p : Nat)
    (h1 : p ≤ a) (h2 : a < b) (h3 : p + s.length < b) :
    runOps [⟨⟨a, b⟩, r⟩] p s = .error "span out of range" := by
  induction s generalizing p with
  | nil =>
    by_cases hlt : p < a
    · rw [runOps.eq_def]
      simp [hlt]
    · have hpe : p = a := by omega
      rw [runOps_step_enter (by simpa using hlt)]
      rw [dropRunes_of_gt _ _ (by simp at h3 ⊢; omega)]
  | cons c s1 ih =>
    by_cases hlt : p < a
    · rw [runOps_step_copy (by simpa using hlt)]
      rw [ih (p + 1) (by omega) (by simp at h3 ⊢; omega)]
      simp [Except.map]
    · have hpe : p = a := by omega
      rw [runOps_step_enter (by simpa using hlt)]
      rw [dropRunes_of_gt _ _ (by simp at h3 ⊢; omega)]

theorem sortOps_single (op : Op) : sortOps [op] = [op] := by
  simp [sortOps, List.insertionSort, List.orderedInsert]

theorem chainOk_single (i j : Nat) (r : List Char) (h : i ≤ j) :
    chainOk 0 [⟨⟨i, j⟩, r⟩] = true := by
  simp [chainOk, h]

theorem transform_single (s : List Char) (i j : Nat) (r : List Char)
    (h1 : i ≤ j) (h2 : j ≤ s.length) :
    transform [⟨⟨i, j⟩, r⟩] s = .ok (s.take i ++ r ++ s.drop j) := by
  simp only [transform, sortOps_single, chainOk_single i j r h1, if_true]
  have := run_finish_eq [⟨⟨i, j⟩, r⟩] 0 s (chainOk_single i j r h1)
  rw [this, runOps_single i j r s 0 (Nat.zero_le i) h1 (by omega)]
  simp

theorem transform_single_oob (s : List Char) (a b : Nat) (r : List Char)
    (h1 : a < b) (h2 : s.length < b) :
    transform [⟨⟨a, b⟩, r⟩] s = .error "span out of range" := by
  simp only [transform, sortOps_single, chainOk_single a b r (Nat.le_of_lt h1), if_true]
  have := run_finish_eq [⟨⟨a, b⟩, r⟩] 0 s (chainOk_single a b r (Nat.le_of_lt h1))
  rw [this, runOps_single_oob a b r s 0 (Nat.zero_le a) h1 (by omega)]

theorem peekGo_sound (s : List Char) (l : List (Nat × Span)) (pos : Nat)
    (h : selOk pos s.length l = true) :
    peekGo pos (s.drop pos) l = some (l.map (fun x => (x.1, sliceSel s x.2))) := by
  induction l generalizing pos with
  | nil => simp [peekGo]
  | cons x rest ih =>
    obtain ⟨i, sp⟩ := x
    simp only [selOk, Bool.and_eq_true, decide_eq_true_eq] at h
    obtain ⟨⟨⟨hp, hss⟩, hn⟩, hrest⟩ := h
    have h1 : ¬sp.start < pos := by omega
    have h2 : ¬sp.stop < sp.start := by omega
    have hd1 : (s.drop pos).drop (sp.start - pos) = s.drop sp.start := by
      rw [List.drop_drop]
      congr 1
      omega
    have hlen : ¬(s.drop sp.start).length < sp.stop - sp.start := by
      simp only [List.length_drop]
      omega
    have hd2 : (s.drop sp.start).drop (sp.stop - sp.start) = s.drop sp.stop := by
      rw [List.drop_drop]
      congr 1
      omega
    simp only [peekGo, h1, if_false, h2, hd1, hlen, hd2, ih sp.stop hrest]
    simp [sliceSel]

theorem withIdx_map_fst (i : Nat) (l : List α) :
    (withIdx i l).map Prod.fst = List.range' i l.length := by
  induction l generalizing i with
  | nil => simp [withIdx]
  | cons a l ih => simp [withIdx, ih, List.range'_succ]

theorem withIdx_mem_of_getElem (i : Nat) (l : List α) (k : Nat) (hk : k < l.length) :
    (i + k, l[k]) ∈ withIdx i l := by
  induction l generalizing i k with
  | nil => simp at hk
  | cons a l ih =>
    cases k with
    | zero => simp [withIdx]
    | succ k =>
      simp only [withIdx, List.mem_cons, List.getElem_cons_succ]
      right
      have harith : i + (k + 1) = i + 1 + k := by omega
      rw [harith]
      exact ih (i + 1) k (by simpa using hk)

theorem lookupIdx_eq_of_mem {α : Type} {l : List (Nat × α)}
    (hnd : (l.map Prod.fst).Nodup) {k : Nat} {v : α} (hm : (k, v) ∈ l) :
    lookupIdx k l = some v := by
  induction l with
  | nil => simp at hm
  | cons x rest ih =>
    obtain ⟨k1, v1⟩ := x
    simp only [List.map_cons, List.nodup_cons] at hnd
    rcases List.mem_cons.mp hm with heq | hmem
    · obtain ⟨hk, hv⟩ := Prod.mk.injEq .. ▸ heq
      injection heq with h1 h2
      simp [lookupIdx, h1.symm, h2]
    · have hk1 : k1 ≠ k := by
        intro hcontra
        subst hcontra
        exact hnd.1 (by simpa using List.mem_map_of_mem Prod.fst hmem)
      simp only [lookupIdx, hk1, if_false]
      exact ih hnd.2 hmem

theorem peek_sound (s : List Char) (sels : List Span)
    (h : selOk 0 s.length (List.insertionSort selLE (withIdx 0 sels)) = true) :
    peek s sels = .ok (sels.map (sliceSel s)) := by
  have hrun := peekGo_sound s (List.insertionSort selLE (withIdx 0 sels)) 0 h
  simp only [List.drop_zero] at hrun
  unfold peek
  rw [hrun]
  simp only []
  congr 1
  have hperm : List.Perm (List.insertionSort selLE (withIdx 0 sels)) (withIdx 0 sels) :=
    List.perm_insertionSort selLE (withIdx 0 sels)
  have hpermMap :
      List.Perm
        ((List.insertionSort selLE (withIdx 0 sels)).map (fun x => (x.1, sliceSel s x.2)))
        ((withIdx 0 sels).map (fun x => (x.1, sliceSel s x.2))) :=
    hperm.map _
  have hkeys :
      (((List.insertionSort selLE (withIdx 0 sels)).map
          (fun x => (x.1, sliceSel s x.2))).map Prod.fst).Nodup := by
    have hfst : ∀ (m : List (Nat × Span)),
        (m.map (fun x => (x.1, sliceSel s x.2))).map Prod.fst = m.map Prod.fst := by
      intro m
      rw [List.map_map]
      rfl
    rw [hfst]
    have := (hperm.map Prod.fst).nodup_iff
    rw [this, withIdx_map_fst]
    exact List.nodup_range' _ _
  apply List.ext_getElem
  · simp
  · intro n h1 h2
    simp only [List.length_map, List.length_range] at h1
    have hmem0 : (n, sels[n]) ∈ withIdx 0 sels := by
      have := withIdx_mem_of_getElem 0 sels n (by simpa using h1)
      simpa using this
    have hmemS : (n, sliceSel s sels[n]) ∈
        (List.insertionSort selLE (withIdx 0 sels)).map (fun x => (x.1, sliceSel s x.2)) := by
      rw [hpermMap.mem_iff]
      exact List.mem_map_of_mem _ hmem0
    have hlook := lookupIdx_eq_of_mem hkeys hmemS
    simp only [List.getElem_map, List.getElem_range]
    rw [hlook]
    rfl

theorem dstChunks_piece_bound (d : Nat) (hd : 1 ≤ d) (l : List Char) :
    ∀ piece ∈ dstChunks d l, piece ≠ [] ∧ piece.length ≤ d := by
  match l with
  | [] => simp [dstChunks]
  | c :: rest =>
    rw [dstChunks]
    intro piece hp
    rcases List.mem_cons.mp hp with rfl | hmem
    · refine ⟨by simp, ?_⟩
      simp only [List.length_cons]
      have := List.length_take (d - 1) rest
      omega
    · exact dstChunks_piece_bound d hd (rest.drop (d - 1)) piece hmem
termination_by l.length
decreasing_by
  simp only [List.length_cons]
  exact Nat.lt_succ_of_le (List.length_drop .. ▸ Nat.sub_le _ _)

theorem dstChunks_flatten (d : Nat) (l : List Char) : (dstChunks d l).flatten = l := by
  match l with
  | [] => simp [dstChunks]
  | c :: rest =>
    rw [dstChunks]
    simp only [List.flatten_cons]
    rw [dstChunks_flatten d (rest.drop (d - 1))]
    simp [List.take_append_drop]
termination_by l.length
decreasing_by
  simp only [List.length_cons]
  exact Nat.lt_succ_of_le (List.length_drop .. ▸ Nat.sub_le _ _)

/-! ## Lemmas: line structure -/

theorem consHead_ne_nil (c : Char) (ls : List (List Char)) : consHead c ls ≠ [] := by
  cases ls <;> simp [consHead]

theorem myLines_ne_nil (s : List Char) : myLines s ≠ [] := by
  cases s with
  | nil => simp [myLines]
  | cons c s =>
    by_cases h : c = '\n' <;> simp [myLines, h, consHead_ne_nil]

theorem noNL_of_mem_myLines (s : List Char) :
    ∀ l ∈ myLines s, '\n' ∉ l := by
  induction s with
  | nil =>
    intro l hl
    simp [myLines] at hl
    simp [hl]
  | cons c s ih =>
    intro l hl
    by_cases h : c = '\n'
    · simp only [myLines, h, if_true, List.mem_cons] at hl
      rcases hl with rfl | hl
      · simp
      · exact ih l hl
    · simp only [myLines, h, if_false] at hl
      cases hm : myLines s with
      | nil => exact absurd hm (myLines_ne_nil s)
      | cons m ms =>
        rw [hm] at hl
        simp only [consHead, List.mem_cons] at hl
        rcases hl with rfl | hl
        · have hmem : '\n' ∉ m := ih m (by rw [hm]; exact List.mem_cons_self m ms)
          simp only [List.mem_cons, not_or]
          exact ⟨fun hh => h hh.symm, hmem⟩
        · exact ih l (by rw [hm]; exact List.mem_cons_of_mem m hl)

theorem myUnlines_cons (l : List Char) (ls : List (List Char)) (h : ls ≠ []) :
    myUnlines (l :: ls) = l ++ '\n' :: myUnlines ls := by
  cases ls with
  | nil => exact absurd rfl h
  | cons m ms => rfl

theorem myUnlines_myLines (s : List Char) : myUnlines (myLines s) = s := by
  induction s with
  | nil => simp [myLines, myUnlines]
  | cons c s ih =>
    by_cases h : c = '\n'
    · simp only [myLines, h, if_true]
      rw [myUnlines_cons [] (myLines s) (myLines_ne_nil s)]
      simp [ih]
    · simp only [myLines, h, if_false]
      cases hm : myLines s with
      | nil => exact absurd hm (myLines_ne_nil s)
      | cons m ms =>
        rw [hm] at ih
        cases ms with
        | nil =>
          simp only [consHead, myUnlines]
          simp [myUnlines] at ih
          simp [ih]
        | cons m2 ms2 =>
          simp only [consHead]
          rw [myUnlines_cons (c :: m) (m2 :: ms2) (by simp)]
          rw [myUnlines_cons m (m2 :: ms2) (by simp)] at ih
          simp at ih ⊢
          simp [ih]

theorem myLines_noNL (p : List Char) (h : '\n' ∉ p) : myLines p = [p] := by
  induction p with
  | nil => simp [myLines]
  | cons c p ih =>
    simp only [List.mem_cons, not_or] at h
    have : myLines p = [p] := ih h.2
    simp [myLines, Ne.symm h.1, this, consHead]

theorem myLines_append_nl (p t : List Char) (h : '\n' ∉ p) :
    myLines (p ++ '\n' :: t) = p :: myLines t := by
  induction p with
  | nil => simp [myLines]
  | cons c p ih =>
    simp only [List.mem_cons, not_or] at h
    simp [myLines, Ne.symm h.1, ih h.2, consHead]

theorem myLines_myUnlines (ps : List (List Char)) (h : ∀ p ∈ ps, '\n' ∉ p)
    (hne : ps ≠ []) : myLines (myUnlines ps) = ps := by
  induction ps with
  | nil => exact absurd rfl hne
  | cons p ps ih =>
    cases ps with
    | nil =>
      simp only [myUnlines]
      exact myLines_noNL p (h p (List.mem_cons_self p []))
    | cons q qs =>
      rw [myUnlines_cons p (q :: qs) (by simp)]
      rw [myLines_append_nl p (myUnlines (q :: qs)) (h p (List.mem_cons_self p _))]
      rw [ih (fun x hx => h x (List.mem_cons_of_mem p hx)) (by simp)]

theorem myLines_concat_nl (s : List Char) :
    myLines (s ++ ['\n']) = myLines s ++ [[]] := by
  induction s with
  | nil => simp [myLines]
  | cons c s ih =>
    by_cases h : c = '\n'
    · simp [myLines, h, ih]
    · simp only [List.cons_append, myLines, h, if_false]
      show consHead c (myLines (s ++ ['\n'])) = consHead c (myLines s) ++ [[]]
      rw [ih]
      cases hm : myLines s with
      | nil => exact absurd hm (myLines_ne_nil s)
      | cons m ms => simp [consHead]

/-! ## Lemmas: indentation -/

theorem dropIndent_spaces (w : Nat) (l : List Char) :
    dropIndent w (spaces w ++ l) = l := by
  induction w with
  | zero => simp [spaces, dropIndent]
  | succ w ih => simpa [spaces, List.replicate_succ, dropIndent] using ih

theorem dropIndent_nil (w : Nat) : dropIndent w [] = [] := by
  cases w <;> simp [dropIndent]

theorem leadingSpaces_spaces_append (w : Nat) (l : List Char)
    (h : l.head? ≠ some ' ') : leadingSpaces (spaces w ++ l) = w := by
  induction w with
  | zero =>
    cases l with
    | nil => simp [spaces, leadingSpaces]
    | cons c l =>
      have hc : ¬c = ' ' := by simpa using h
      simp [spaces, leadingSpaces, List.takeWhile_cons, hc]
  | succ w ih =>
    have hstep : spaces (w + 1) ++ l = ' ' :: (spaces w ++ l) := by
      simp [spaces, List.replicate_succ]
    rw [hstep]
    simp only [leadingSpaces, List.takeWhile_cons] at ih ⊢
    simp [ih]

theorem indentLine_isEmpty (w : Nat) (l : List Char) :
    (indentLine w l).isEmpty = l.isEmpty := by
  cases l with
  | nil => simp [indentLine]
  | cons c l => simp [indentLine, spaces]

theorem noNL_indentLine (w : Nat) (l : List Char) (h : '\n' ∉ l) :
    '\n' ∉ indentLine w l := by
  cases l with
  | nil => simp [indentLine]
  | cons c l =>
    simp only [indentLine, if_neg (by simp : ¬(c :: l : List Char) = [])]
    simp only [List.mem_append, not_or]
    refine ⟨fun hmem => ?_, h⟩
    simp only [spaces] at hmem
    have h2 : ('\n' : Char) = ' ' := List.eq_of_mem_replicate hmem
    exact absurd h2 (by decide)

theorem dropIndent_indentLine (w : Nat) (l : List Char) :
    dropIndent w (indentLine w l) = l := by
  cases l with
  | nil => simp [indentLine, dropIndent_nil]
  | cons c l =>
    simp only [indentLine, if_neg (by simp : (c :: l : List Char) ≠ [])]
    exact dropIndent_spaces w (c :: l)

/-! ## Lemmas: indentation detection on re-parse -/

theorem firstContentIndent_map (ls : List (List Char)) (w : Nat)
    (hok : ∀ l, ls.find? (fun l => !l.isEmpty) = some l → l.head? ≠ some ' ')
    (hcont : (ls.find? (fun l => !l.isEmpty)).isSome = true) :
    firstContentIndent (ls.map (indentLine w)) = w := by
  induction ls with
  | nil => simp at hcont
  | cons l ls ih =>
    by_cases he : l.isEmpty
    · have hl : l = [] := by simpa using he
      subst hl
      have hskip : (([] : List Char) :: ls).find? (fun l => !l.isEmpty) =
          ls.find? (fun l => !l.isEmpty) := by
        simp [List.find?_cons_of_neg]
      rw [hskip] at hok hcont
      have : firstContentIndent ((([] : List Char) :: ls).map (indentLine w)) =
          firstContentIndent (ls.map (indentLine w)) := by
        simp [firstContentIndent, indentLine, List.find?_cons_of_neg]
      rw [this]
      exact ih hok hcont
    · have hfind : (l :: ls).find? (fun l => !l.isEmpty) = some l :=
        List.find?_cons_of_pos _ (by simpa using he)
      have hhead : l.head? ≠ some ' ' := hok l hfind
      have hmne : (indentLine w l).isEmpty = false := by
        rw [indentLine_isEmpty]
        simpa using he
      simp only [List.map_cons, firstContentIndent]
      rw [List.find?_cons_of_pos _ (by simp [hmne])]
      have hle : l ≠ [] := by simpa using he
      cases l with
      | nil => exact absurd rfl hle
      | cons c cl =>
        simp only [indentLine, if_neg (by simp : ¬(c :: cl : List Char) = [])]
        exact leadingSpaces_spaces_append w (c :: cl) hhead

theorem deindent_map (ls : List (List Char)) (w : Nat) :
    (ls.map (indentLine w)).map (dropIndent w) = ls := by
  rw [List.map_map]
  have : ∀ l ∈ ls, (dropIndent w ∘ indentLine w) l = id l := by
    intro l _
    simp [dropIndent_indentLine]
  rw [List.map_congr_left this]
  simp

/-! ## Lemmas: trailing newlines -/

theorem endsNL_concat_nl (s : List Char) : endsNL (s ++ ['\n']) = true := by
  simp [endsNL, List.getLast?_concat]

theorem reverse_dropWhile_reverse_id (p : Char → Bool) (s : List Char)
    (h : ∀ c, s.getLast? = some c → p c = false) :
    (s.reverse.dropWhile p).reverse = s := by
  cases hr : s.reverse with
  | nil =>
    rw [List.reverse_eq_nil_iff] at hr
    simp [hr]
  | cons c t =>
    have hL : s.getLast? = some c := by
      rw [← List.head?_reverse, hr]
      rfl
    rw [List.dropWhile_cons, if_neg (by simp [h c hL])]
    rw [← hr, List.reverse_reverse]

theorem dropTrailingNLs_of_not_endsNL (s : List Char) (h : endsNL s = false) :
    dropTrailingNLs s = s := by
  unfold dropTrailingNLs
  apply reverse_dropWhile_reverse_id
  intro c hc
  simp only [endsNL, hc] at h
  simpa using h

theorem myLines_cons_ne (d : Char) (s : List Char) (hd : ¬d = '\n') :
    myLines (d :: s) = consHead d (myLines s) := by
  simp only [myLines, hd, if_false]

theorem myLines_cons_nl (s : List Char) :
    myLines ('\n' :: s) = [] :: myLines s := by
  simp only [myLines, if_true]

theorem eq_dropLast_concat_of_endsNL (s : List Char) (hne : s ≠ [])
    (h : endsNL s = true) : s = s.dropLast ++ ['\n'] := by
  have h1 : s.getLast? = some '\n' := by simpa [endsNL] using h
  rw [List.getLast?_eq_getLast s hne, Option.some.injEq] at h1
  conv_lhs => rw [← List.dropLast_append_getLast hne]
  rw [h1]

theorem exists_content_line (c : List Char) (hne : c ≠ [])
    (h : endsNL c = false) : ∃ l ∈ myLines c, l ≠ [] := by
  induction c with
  | nil => exact absurd rfl hne
  | cons d c' ih =>
    cases c' with
    | nil =>
      have hd : ¬d = '\n' := by simpa [endsNL] using h
      refine ⟨[d], ?_, by simp⟩
      simp [myLines, hd, consHead]
    | cons e c'' =>
      have h2 : endsNL (e :: c'') = false := by
        simpa [endsNL, List.getLast?_cons_cons] using h
      obtain ⟨l, hl, hlne⟩ := ih (by simp) h2
      by_cases hd : d = '\n'
      · subst hd
        exact ⟨l, by rw [myLines_cons_nl]; exact List.mem_cons_of_mem _ hl, hlne⟩
      · cases hm : myLines (e :: c'') with
        | nil => exact absurd hm (myLines_ne_nil _)
        | cons m ms =>
          have hexp : myLines (d :: e :: c'') = (d :: m) :: ms := by
            rw [myLines_cons_ne d (e :: c'') hd, hm]
            rfl
          rw [hm] at hl
          rcases List.mem_cons.mp hl with rfl | hmem
          · refine ⟨d :: l, ?_, by simp⟩
            rw [hexp]
            exact List.mem_cons_self _ _
          · refine ⟨l, ?_, hlne⟩
            rw [hexp]
            exact List.mem_cons_of_mem _ hmem

/-! ## Lemmas: escaping round-trips -/

theorem dqUnescape_cons (c : Char) (w : List Char) (h : ¬c = '\\') :
    dqUnescape (c :: w) = c :: dqUnescape w := by
  cases w with
  | nil => rfl
  | cons d w' => simp [dqUnescape, h]

theorem dqUnescape_dqEscape (v : List Char) : dqUnescape (dqEscape v) = v := by
  induction v with
  | nil => rfl
  | cons c r ih =>
    by_cases h : c = '"' ∨ c = '\\'
    · simp only [dqEscape, h, if_true]
      simp [dqUnescape, ih]
    · simp only [dqEscape, h, if_false]
      rw [dqUnescape_cons c _ (fun hc => h (Or.inr hc)), ih]

theorem sqUnescape_cons (c : Char) (w : List Char) (h : ¬c = '\'') :
    sqUnescape (c :: w) = c :: sqUnescape w := by
  cases w with
  | nil => rfl
  | cons d w' => simp [sqUnescape, h]

theorem sqUnescape_sqEscape (v : List Char) : sqUnescape (sqEscape v) = v := by
  induction v with
  | nil => rfl
  | cons c r ih =>
    by_cases h : c = '\''
    · subst h
      simp [sqEscape, sqUnescape, ih]
    · simp only [sqEscape, if_neg h]
      rw [sqUnescape_cons c _ h, ih]

/-! ## Lemmas: plain scalars -/

theorem cutComment_of_no_spaceHash (s : List Char) (h : hasSpaceHash s = false) :
    cutComment s = s := by
  induction s with
  | nil => rfl
  | cons c r ih =>
    simp only [hasSpaceHash, Bool.or_eq_false_iff, Bool.and_eq_false_iff] at h
    have hcond : ¬(c = ' ' ∧ r.head? = some '#') := by
      rcases h.1 with h1 | h1 <;> simp only [decide_eq_false_iff_not] at h1
      · exact fun hc => h1 hc.1
      · exact fun hc => h1 hc.2
    simp [cutComment, hcond, ih h.2]

theorem trimSpaces_id (s : List Char) (h1 : s.head? ≠ some ' ')
    (h2 : s.getLast? ≠ some ' ') : trimSpaces s = s := by
  unfold trimSpaces
  have hd : s.dropWhile (fun c => c = ' ') = s := by
    cases s with
    | nil => rfl
    | cons c r =>
      have hc : ¬c = ' ' := by simpa using h1
      simp [List.dropWhile_cons, hc]
  rw [hd]
  apply reverse_dropWhile_reverse_id
  intro c hc
  simp only [decide_eq_false_iff_not]
  intro hcc
  rw [hcc] at hc
  exact h2 hc

theorem plainSafe_facts (v : List Char) (h : plainSafe v = true) :
    v ≠ [] ∧ '\n' ∉ v ∧ hasSpaceHash v = false ∧ v.head? ≠ some ' ' ∧
      v.getLast? ≠ some ' ' ∧ ∀ c, v.head? = some c → indicatorChar c = false := by
  cases v with
  | nil => simp [plainSafe] at h
  | cons c r =>
    simp only [plainSafe, Bool.and_eq_true, Bool.not_eq_true', decide_eq_true_eq] at h
    obtain ⟨⟨⟨⟨hind, hsp⟩, hlast⟩, hnl⟩, hsh⟩ := h
    refine ⟨by simp, hnl, hsh, by simpa using hsp, hlast, ?_⟩
    intro d hd
    simp only [List.head?_cons, Option.some.injEq] at hd
    rw [← hd]
    exact hind

theorem parse_plain (v : List Char) (hv : v ≠ []) (hq : v.head? ≠ some '"')
    (hsq : v.head? ≠ some '\'') (hp : v.head? ≠ some '|')
    (hsh : hasSpaceHash v = false) (hh : v.head? ≠ some ' ')
    (hl : v.getLast? ≠ some ' ') :
    parseScalarDoc v = (v, plainTag v) := by
  unfold parseScalarDoc
  simp [hv, hq, hsq, hp, cutComment_of_no_spaceHash v hsh, trimSpaces_id v hh hl]

/-! ## Lemmas: parsing a block literal back -/

theorem find?_append_nil_elem (l1 : List (List Char)) :
    (l1 ++ [[]]).find? (fun l => !l.isEmpty) = l1.find? (fun l => !l.isEmpty) := by
  induction l1 with
  | nil => simp [List.find?]
  | cons a l ih =>
    by_cases ha : a.isEmpty
    · rw [List.cons_append, List.find?_cons_of_neg _ (by simpa using ha),
        List.find?_cons_of_neg _ (by simpa using ha), ih]
    · rw [List.cons_append, List.find?_cons_of_pos _ (by simpa using ha),
        List.find?_cons_of_pos _ (by simpa using ha)]

theorem firstLineOk_spec (v : List Char) (h : firstLineOk v = true) :
    ∀ l, (myLines v).find? (fun l => !l.isEmpty) = some l → l.head? ≠ some ' ' := by
  intro l hl
  unfold firstLineOk at h
  rw [hl] at h
  simpa using h

theorem myLines_body (cnt : List Char) (w : Nat) :
    myLines (myUnlines ((myLines cnt).map (indentLine w))) =
      (myLines cnt).map (indentLine w) := by
  apply myLines_myUnlines
  · intro p hp
    obtain ⟨l, hl, rfl⟩ := List.mem_map.mp hp
    exact noNL_indentLine w l (noNL_of_mem_myLines cnt l hl)
  · simp only [ne_eq, List.map_eq_nil_iff]
    exact myLines_ne_nil cnt

theorem find?_content_isSome (cnt : List Char) (hne : cnt ≠ [])
    (hnl : endsNL cnt = false) :
    ((myLines cnt).find? (fun l => !l.isEmpty)).isSome = true := by
  rw [List.find?_isSome]
  obtain ⟨l, hl, hlne⟩ := exists_content_line cnt hne hnl
  exact ⟨l, hl, by simpa using hlne⟩

theorem parseBlock_deindent (cnt : List Char) (w : Nat) (hne : cnt ≠ [])
    (hnl : endsNL cnt = false)
    (hok : ∀ l, (myLines cnt).find? (fun l => !l.isEmpty) = some l →
      l.head? ≠ some ' ') :
    myUnlines ((myLines (myUnlines ((myLines cnt).map (indentLine w)))).map
      (dropIndent (firstContentIndent
        (myLines (myUnlines ((myLines cnt).map (indentLine w))))))) = cnt := by
  rw [myLines_body, firstContentIndent_map _ w hok (find?_content_isSome cnt hne hnl),
    deindent_map, myUnlines_myLines]

theorem parseBlock_clip (cnt : List Char) (w : Nat) (hne : cnt ≠ [])
    (hnl : endsNL cnt = false)
    (hok : ∀ l, (myLines cnt).find? (fun l => !l.isEmpty) = some l →
      l.head? ≠ some ' ') :
    parseBlock ('\n' :: myUnlines ((myLines cnt).map (indentLine w))) =
      (cnt ++ ['\n'], .str) := by
  unfold parseBlock
  have hsplit : splitFirstNL ('\n' :: myUnlines ((myLines cnt).map (indentLine w))) =
      ([], myUnlines ((myLines cnt).map (indentLine w))) := by
    simp [splitFirstNL]
  rw [hsplit]
  simp only []
  rw [parseBlock_deindent cnt w hne hnl hok]
  simp [applyChomp, dropTrailingNLs_of_not_endsNL cnt hnl, hne]

theorem parseBlock_strip (cnt : List Char) (w : Nat) (hne : cnt ≠ [])
    (hnl : endsNL cnt = false)
    (hok : ∀ l, (myLines cnt).find? (fun l => !l.isEmpty) = some l →
      l.head? ≠ some ' ') :
    parseBlock ('-' :: '\n' :: myUnlines ((myLines cnt).map (indentLine w))) =
      (cnt, .str) := by
  unfold parseBlock
  have hsplit :
      splitFirstNL ('-' :: '\n' :: myUnlines ((myLines cnt).map (indentLine w))) =
        (['-'], myUnlines ((myLines cnt).map (indentLine w))) := by
    simp [splitFirstNL]
  rw [hsplit]
  simp only []
  rw [parseBlock_deindent cnt w hne hnl hok]
  simp [applyChomp, dropTrailingNLs_of_not_endsNL cnt hnl]

theorem parseScalarDoc_pipe (rest : List Char) :
    parseScalarDoc ('|' :: rest) = parseBlock rest := by
  simp [parseScalarDoc]

theorem parseScalarDoc_dq (rest : List Char) :
    parseScalarDoc ('"' :: rest) = (dqUnescape rest.dropLast, .str) := by
  simp [parseScalarDoc]

theorem parseScalarDoc_sq (rest : List Char) :
    parseScalarDoc ('\'' :: rest) = (sqUnescape rest.dropLast, .str) := by
  simp [parseScalarDoc]

/-! ## The quoter round-trip -/

theorem roundtrip_yamlString (v : List Char) (k : Nat)
    (h1 : twoTrailingNL v = false) (h2 : v ≠ ['\n']) (h3 : firstLineOk v = true) :
    parseScalarDoc (yamlString v k) = (v, if v = [] then YTag.null else YTag.str) := by
  by_cases hv : v = []
  · subst hv
    simp [yamlString, parseScalarDoc]
  · rw [if_neg hv]
    by_cases hnl : '\n' ∈ v
    · have hys : yamlString v k = blockLit v k := by
        simp [yamlString, hv, hnl]
      rw [hys]
      by_cases hE : endsNL v = true
      · have hE2 : endsNL v.dropLast = false := by
          cases hB : endsNL v.dropLast with
          | false => rfl
          | true =>
            rw [twoTrailingNL, hE, hB] at h1
            simp at h1
        have hveq : v = v.dropLast ++ ['\n'] := eq_dropLast_concat_of_endsNL v hv hE
        have hcne : v.dropLast ≠ [] := by
          intro hc
          rw [hc] at hveq
          exact h2 (by simpa using hveq)
        have hhdr : blockHeader v = ['|'] := by
          simp [blockHeader, hE, hE2]
        have hcnt : blockContent v = v.dropLast := by
          simp [blockContent, hE]
        rw [show blockLit v k =
            '|' :: ('\n' :: myUnlines ((myLines v.dropLast).map (indentLine k))) from by
          simp [blockLit, hhdr, hcnt]]
        rw [parseScalarDoc_pipe]
        have hok : ∀ l, (myLines v.dropLast).find? (fun l => !l.isEmpty) = some l →
            l.head? ≠ some ' ' := by
          intro l hl
          apply firstLineOk_spec v h3
          have hfind := find?_append_nil_elem (myLines v.dropLast)
          rw [← myLines_concat_nl] at hfind
          rw [← hveq] at hfind
          rw [hfind]
          exact hl
        rw [parseBlock_clip v.dropLast k hcne hE2 hok, ← hveq]
      · have hEf : endsNL v = false := by simpa using hE
        have hhdr : blockHeader v = ['|', '-'] := by
          simp [blockHeader, hEf]
        have hcnt : blockContent v = v := by
          simp [blockContent, hEf]
        rw [show blockLit v k =
            '|' :: ('-' :: '\n' :: myUnlines ((myLines v).map (indentLine k))) from by
          simp [blockLit, hhdr, hcnt]]
        rw [parseScalarDoc_pipe]
        rw [parseBlock_strip v k hv hEf (firstLineOk_spec v h3)]
    · by_cases hps : plainSafe v = true
      · by_cases ht : plainTag v = .str
        · have hys : yamlString v k = v := by
            simp [yamlString, hv, hnl, hps, ht]
          rw [hys]
          obtain ⟨_, _, hsh, hh, hl, hind⟩ := plainSafe_facts v hps
          have hq : v.head? ≠ some '"' := by
            intro hc
            have := hind '"' hc
            rw [show indicatorChar '"' = true from by decide] at this
            simp at this
          have hsq : v.head? ≠ some '\'' := by
            intro hc
            have := hind '\'' hc
            rw [show indicatorChar '\'' = true from by decide] at this
            simp at this
          have hp : v.head? ≠ some '|' := by
            intro hc
            have := hind '|' hc
            rw [show indicatorChar '|' = true from by decide] at this
            simp at this
          rw [parse_plain v hv hq hsq hp hsh hh hl, ht]
        · have hys : yamlString v k = dqEmit v := by
            simp [yamlString, hv, hnl, hps, ht]
          rw [hys, dqEmit, parseScalarDoc_dq]
          rw [show (dqEscape v ++ ['"']).dropLast = dqEscape v from by simp]
          rw [dqUnescape_dqEscape]
      · have hys : yamlString v k = sqEmit v := by
          simp [yamlString, hv, hnl, hps]
        rw [hys, sqEmit, parseScalarDoc_sq]
        rw [show (sqEscape v ++ ['\'']).dropLast = sqEscape v from by simp]
        rw [sqUnescape_sqEscape]

/-! ## Lemmas: block emission structure and quote branches -/

theorem blockLit_lines (v : List Char) (w : Nat) :
    myLines (blockLit v w) =
      blockHeader v :: (myLines (blockContent v)).map (indentLine w) := by
  have hnl : '\n' ∉ blockHeader v := by
    unfold blockHeader
    split_ifs <;> decide
  rw [show blockLit v w = blockHeader v ++
      '\n' :: myUnlines ((myLines (blockContent v)).map (indentLine w)) from rfl]
  rw [myLines_append_nl _ _ hnl, myLines_body]

theorem blockLit_tail_prefix (v : List Char) (w : Nat) :
    ∀ l ∈ (myLines (blockLit v w)).tail, l = [] ∨ l.take w = spaces w := by
  rw [blockLit_lines]
  simp only [List.tail_cons]
  intro l hl
  obtain ⟨m, hm, rfl⟩ := List.mem_map.mp hl
  cases m with
  | nil =>
    left
    simp [indentLine]
  | cons c cl =>
    right
    simp only [indentLine, if_neg (by simp : ¬(c :: cl : List Char) = [])]
    have := List.take_left (spaces w) (c :: cl)
    simp only [spaces, List.length_replicate] at this
    simp only [spaces]
    exact this

theorem plainSafe_false_of_newline (v : List Char) (h : '\n' ∈ v) :
    plainSafe v = false := by
  cases v with
  | nil => simp at h
  | cons c r =>
    simp only [plainSafe]
    rw [show decide ('\n' ∉ c :: r) = false from by simp [h]]
    simp

theorem plainValue_false_of_newline (v : List Char) (h : '\n' ∈ v) :
    plainValue v = false := by
  have hne : ¬v = [] := by
    rintro rfl
    simp at h
  simp [plainValue, hne, plainSafe_false_of_newline v h]

theorem quote_dq_branch (s old : List Char) (k : Nat)
    (h : (stripLS old).head? = some '"') :
    quote s old k =
      if plainValue s && plainValue (dqUnescape (stripQuotes (stripLS old))) then
        dqEmit s
      else yamlString s (k + 2) := by
  simp only [quote, h]

theorem quote_sq_branch (s old : List Char) (k : Nat)
    (h : (stripLS old).head? = some '\'') :
    quote s old k =
      if plainValue s && plainValue (sqUnescape (stripQuotes (stripLS old))) then
        sqEmit s
      else yamlString s (k + 2) := by
  simp only [quote, h]

theorem quote_block (s old : List Char) (k : Nat)
    (h : (stripLS old).head? = some '|' ∨ (stripLS old).head? = some '>')
    (hs : '\n' ∈ s) :
    quote s old k = blockLit s (blockWidth (stripLS old) k) := by
  rcases h with h | h <;> simp only [quote, h] <;> simp [hs]

/-! ## Claim theorems -/

/-- C1 (amended): for every string `v` and width `k`, provided `v` does not
end with two or more newlines, `v ≠ "\n"`, and the first non-empty line of
`v` does not begin with a space, parsing `yamlString(v, k)` as a standalone
YAML document yields a scalar whose value equals `v` and whose tag is
`!!str`; the empty string parses with tag `!!null`.  (For the excluded `v`
the block emission drops the final newline, which only the surrounding
document restores — see the counterexample.) -/
theorem claim_C1_roundtrip (v : List Char) (k : Nat)
    (h1 : twoTrailingNL v = false) (h2 : v ≠ ['\n']) (h3 : firstLineOk v = true) :
    parseScalarDoc (yamlString v k) = (v, if v = [] then YTag.null else YTag.str) :=
  roundtrip_yamlString v k h1 h2 h3

theorem claim_C1_witness :
    parseScalarDoc (yamlString "a\nb".toList 2) =
      ("a\nb".toList, if "a\nb".toList = [] then YTag.null else YTag.str) :=
  claim_C1_roundtrip "a\nb".toList 2 (by decide) (by decide) (by decide)

/-- C1 counterexample: the emission for `"a\n\n"` at width 2 is `"|+\n  a\n"`
(exactly what the repository's `TestYamlString` expects of `yamlString`), and
parsing that text as a standalone YAML document yields `"a\n"` — one newline
short of the original value, because the trailing newline of a keep-chomped
block is supplied by the document context, not the emission.  Likewise
`yamlString "\n"` re-parses to the empty string, and a value whose first line
starts with spaces loses them to block-indentation detection. -/
theorem claim_C1_counterexample :
    yamlString "a\n\n".toList 2 = "|+\n  a\n".toList ∧
      parseScalarDoc "|+\n  a\n".toList = ("a\n".toList, YTag.str) ∧
      "a\n".toList ≠ "a\n\n".toList ∧
      parseScalarDoc (yamlString "\n".toList 2) = ([], YTag.str) ∧
      (parseScalarDoc (yamlString "  x\ny".toList 2)).1 = "x\ny".toList := by
  decide

/-- C2: for every op set and every partition of the source into chunks, the
chunked incremental run of the transformer equals the single-shot run, and
for every destination buffer size of at least one rune the output delivered
through the buffer concatenates to the same byte sequence. -/
theorem claim_C2_chunk_invariance (ops : List Op) (css : List (List Char))
    (d : Nat) (hd : 1 ≤ d) :
    chunkedTransform ops css = transform ops css.flatten ∧
      (dstChunks d (outOf (transform ops css.flatten))).flatten =
        outOf (transform ops css.flatten) ∧
      ∀ piece ∈ dstChunks d (outOf (transform ops css.flatten)),
        piece ≠ [] ∧ piece.length ≤ d := by
  refine ⟨?_, dstChunks_flatten d _, dstChunks_piece_bound d hd _⟩
  simp only [chunkedTransform, transform, runChunks_eq_join]

theorem claim_C2_witness :
    chunkedTransform [⟨⟨1, 2⟩, "XYZ".toList⟩] ["a".toList, "bc".toList, "d".toList] =
        transform [⟨⟨1, 2⟩, "XYZ".toList⟩]
          (["a".toList, "bc".toList, "d".toList].flatten) ∧
      (dstChunks 1 (outOf (transform [⟨⟨1, 2⟩, "XYZ".toList⟩]
          (["a".toList, "bc".toList, "d".toList].flatten)))).flatten =
        outOf (transform [⟨⟨1, 2⟩, "XYZ".toList⟩]
          (["a".toList, "bc".toList, "d".toList].flatten)) ∧
      ∀ piece ∈ dstChunks 1 (outOf (transform [⟨⟨1, 2⟩, "XYZ".toList⟩]
          (["a".toList, "bc".toList, "d".toList].flatten))),
        piece ≠ [] ∧ piece.length ≤ 1 :=
  claim_C2_chunk_invariance [⟨⟨1, 2⟩, "XYZ".toList⟩]
    ["a".toList, "bc".toList, "d".toList] 1 (by decide)

/-- C3 (amended): if the original scalar is double-quoted and
`quote(v, original, k)` emits a form that is not double-quoted, then the
emission is the default formatting, and either `v` is not plainly emittable
as `!!str` (it contains a newline, a leading indicator, a comment sequence,
or its plain form would re-tag) or the original's quoted content is itself
not plainly emittable (its quotes were semantic, as in `"1"`). -/
theorem claim_C3_style_preservation (v old : List Char) (k : Nat)
    (hdq : (stripLS old).head? = some '"')
    (hout : (quote v old k).head? ≠ some '"') :
    quote v old k = yamlString v (k + 2) ∧
      ¬(plainValue v = true ∧
        plainValue (dqUnescape (stripQuotes (stripLS old))) = true) := by
  have hbr := quote_dq_branch v old k hdq
  cases hcond : (plainValue v && plainValue (dqUnescape (stripQuotes (stripLS old)))) with
  | true =>
    exfalso
    rw [hbr, if_pos hcond] at hout
    exact hout rfl
  | false =>
    rw [hbr, if_neg (by simp [hcond])]
    refine ⟨rfl, fun hc => ?_⟩
    rw [hc.1, hc.2] at hcond
    simp at hcond

theorem claim_C3_witness :
    quote "a\nb".toList "\"b\"".toList 0 = yamlString "a\nb".toList 2 ∧
      ¬(plainValue "a\nb".toList = true ∧
        plainValue (dqUnescape (stripQuotes (stripLS "\"b\"".toList))) = true) :=
  claim_C3_style_preservation "a\nb".toList "\"b\"".toList 0 (by decide) (by decide)

/-- C3 counterexample: `quote("1.0.0", "\"1\"", 0)` emits the plain form
`1.0.0` (exactly the repository's `TestQuote` case 6), which is not
double-quoted, yet the plain emission of `1.0.0` parses with tag `!!str` —
refuting the claim that a non-double-quoted emission implies the plain form
would have re-tagged. -/
theorem claim_C3_counterexample :
    quote "1.0.0".toList "\"1\"".toList 0 = "1.0.0".toList ∧
      ("1.0.0".toList).head? ≠ some '"' ∧
      parseScalarDoc "1.0.0".toList = ("1.0.0".toList, YTag.str) := by
  decide

/-- C4 (amended): replacing an original block scalar by a multi-line value
emits a block literal whose non-empty content lines are prefixed by the
original block's content indent column when that column is visible
(non-zero), and by `indent + 2` when the original's first content line has no
indentation. -/
theorem claim_C4_block_reindent (v old : List Char) (k : Nat)
    (h : (stripLS old).head? = some '|' ∨ (stripLS old).head? = some '>')
    (hs : '\n' ∈ v) :
    quote v old k = blockLit v (blockWidth (stripLS old) k) ∧
      (oldContentIndent (stripLS old) ≠ 0 →
        blockWidth (stripLS old) k = oldContentIndent (stripLS old)) ∧
      (oldContentIndent (stripLS old) = 0 → blockWidth (stripLS old) k = k + 2) ∧
      ∀ l ∈ (myLines (quote v old k)).tail,
        l = [] ∨ l.take (blockWidth (stripLS old) k) =
          spaces (blockWidth (stripLS old) k) := by
  have hq := quote_block v old k h hs
  refine ⟨hq, fun hno => by simp [blockWidth, hno], fun hz => by simp [blockWidth, hz], ?_⟩
  rw [hq]
  exact blockLit_tail_prefix v _

theorem claim_C4_witness :
    quote "x: y\nbar: y\n".toList "|\n    bar: x\n".toList 2 =
        blockLit "x: y\nbar: y\n".toList
          (blockWidth (stripLS "|\n    bar: x\n".toList) 2) ∧
      (oldContentIndent (stripLS "|\n    bar: x\n".toList) ≠ 0 →
        blockWidth (stripLS "|\n    bar: x\n".toList) 2 =
          oldContentIndent (stripLS "|\n    bar: x\n".toList)) ∧
      (oldContentIndent (stripLS "|\n    bar: x\n".toList) = 0 →
        blockWidth (stripLS "|\n    bar: x\n".toList) 2 = 2 + 2) ∧
      ∀ l ∈ (myLines (quote "x: y\nbar: y\n".toList "|\n    bar: x\n".toList 2)).tail,
        l = [] ∨ l.take (blockWidth (stripLS "|\n    bar: x\n".toList) 2) =
          spaces (blockWidth (stripLS "|\n    bar: x\n".toList) 2) :=
  claim_C4_block_reindent "x: y\nbar: y\n".toList "|\n    bar: x\n".toList 2
    (by decide) (by decide)

/-- C4 counterexample: in the repository's `TestQuote` case 13 the original
block text is `"|\nbar: x\n"` whose first content line has indent column 0,
yet `quote("bar: y\n", "|\nbar: x\n", 0)` emits `"|\n  bar: y"` with the
content at column 2 = indent + 2 — not at the original block's content
indent column as the claim states. -/
theorem claim_C4_counterexample :
    quote "bar: y\n".toList "|\nbar: x\n".toList 0 = "|\n  bar: y".toList ∧
      oldContentIndent (stripLS "|\nbar: x\n".toList) = 0 ∧
      (myLines (quote "bar: y\n".toList "|\nbar: x\n".toList 0)).drop 1 =
        ["  bar: y".toList] ∧
      leadingSpaces "  bar: y".toList = 2 := by
  decide

/-- C5 (amended): for every multi-line value the emission is a block literal
whose chomping indicator follows the trailing newlines of `v` — none gives
strip (`|-`), exactly one gives clip (`|`) with the trailing newline dropped
from the emitted content, two or more give keep (`|+`) — and whose non-empty
content lines are prefixed by exactly `k` spaces, where `k` is the width
argument of `yamlString` (the caller `quote` passes `indent + 2`; the width
is not `k + 2` as the claim, reading `k` as the indent, states). -/
theorem claim_C5_block_chomping (v : List Char) (k : Nat) (h : '\n' ∈ v) :
    yamlString v k = blockLit v k ∧
      (endsNL v = false → blockHeader v = ['|', '-'] ∧ blockContent v = v) ∧
      (endsNL v = true → endsNL v.dropLast = false →
        blockHeader v = ['|'] ∧ blockContent v = v.dropLast) ∧
      (endsNL v = true → endsNL v.dropLast = true → blockHeader v = ['|', '+']) ∧
      myLines (blockLit v k) =
        blockHeader v :: (myLines (blockContent v)).map (indentLine k) ∧
      ∀ l ∈ (myLines (yamlString v k)).tail, l = [] ∨ l.take k = spaces k := by
  have hne : v ≠ [] := by
    rintro rfl
    simp at h
  have hys : yamlString v k = blockLit v k := by
    simp [yamlString, hne, h]
  refine ⟨hys, ?_, ?_, ?_, blockLit_lines v k, ?_⟩
  · intro hE
    exact ⟨by simp [blockHeader, hE], by simp [blockContent, hE]⟩
  · intro hE hE2
    exact ⟨by simp [blockHeader, hE, hE2], by simp [blockContent, hE]⟩
  · intro hE hE2
    simp [blockHeader, hE, hE2]
  · rw [hys]
    exact blockLit_tail_prefix v k

theorem claim_C5_witness :
    yamlString "a\nb".toList 2 = blockLit "a\nb".toList 2 ∧
      (endsNL "a\nb".toList = false →
        blockHeader "a\nb".toList = ['|', '-'] ∧
          blockContent "a\nb".toList = "a\nb".toList) ∧
      (endsNL "a\nb".toList = true → endsNL ("a\nb".toList).dropLast = false →
        blockHeader "a\nb".toList = ['|'] ∧
          blockContent "a\nb".toList = ("a\nb".toList).dropLast) ∧
      (endsNL "a\nb".toList = true → endsNL ("a\nb".toList).dropLast = true →
        blockHeader "a\nb".toList = ['|', '+']) ∧
      myLines (blockLit "a\nb".toList 2) =
        blockHeader "a\nb".toList ::
          (myLines (blockContent "a\nb".toList)).map (indentLine 2) ∧
      ∀ l ∈ (myLines (yamlString "a\nb".toList 2)).tail,
        l = [] ∨ l.take 2 = spaces 2 :=
  claim_C5_block_chomping "a\nb".toList 2 (by decide)

/-- C5 counterexample: `yamlString("a\n", 2)` emits `"|\n  a"` (the
repository's `TestYamlString` case 4) whose content line is prefixed by 2
spaces, not by `2 + 2` as the claim's `indent + 2` reading demands; and the
interior blank line of `yamlString("a\n\nb", 2)` carries no prefix at all. -/
theorem claim_C5_counterexample :
    yamlString "a\n".toList 2 = "|\n  a".toList ∧
      (myLines (yamlString "a\n".toList 2)).drop 1 = ["  a".toList] ∧
      ¬("  a".toList).take 4 = spaces 4 ∧
      (myLines (yamlString "a\n\nb".toList 2)).drop 2 = [[], "  b".toList] := by
  decide

/-- C6 (amended): if the original scalar is single-quoted, the new value's
default formatting is plain, and the original's quoted content is itself
plainly emittable, then `quote` emits the new value single-quoted
(`quote("a", "'b'", 0) = "'a'"`); if the new value contains a newline the
emission falls back to a block literal. -/
theorem claim_C6_single_quoted (v old : List Char) (k : Nat)
    (hsq : (stripLS old).head? = some '\'') :
    (plainValue v = true →
      plainValue (sqUnescape (stripQuotes (stripLS old))) = true →
        quote v old k = sqEmit v) ∧
      ('\n' ∈ v → quote v old k = blockLit v (k + 2)) := by
  have hbr := quote_sq_branch v old k hsq
  constructor
  · intro h1 h2
    rw [hbr, if_pos (by rw [h1, h2]; rfl)]
  · intro hnl
    have hpv : plainValue v = false := plainValue_false_of_newline v hnl
    have hne : v ≠ [] := by
      rintro rfl
      simp at hnl
    rw [hbr, if_neg (by simp [hpv])]
    simp [yamlString, hne, hnl]

theorem claim_C6_witness :
    quote "a".toList "'b'".toList 0 = sqEmit "a".toList ∧
      quote "a\nb".toList "'b'".toList 0 = blockLit "a\nb".toList 2 :=
  ⟨(claim_C6_single_quoted "a".toList "'b'".toList 0 (by decide)).1
      (by decide) (by decide),
    (claim_C6_single_quoted "a\nb".toList "'b'".toList 0 (by decide)).2 (by decide)⟩

/-- C6 counterexample: with the original `'#a'` (single-quoted, but its
content `#a` cannot be written plain), `quote("a", "'#a'", 0)` emits the
plain form `a`, not `'a'` — exactly the repository's `TestQuote` case 9 —
refuting the claim that a plain default always keeps the single quotes. -/
theorem claim_C6_counterexample :
    quote "a".toList "'#a'".toList 0 = "a".toList ∧
      quote "a".toList "'#a'".toList 0 ≠ sqEmit "a".toList ∧
      plainValue "a".toList = true := by
  decide

/-- C7: the region replaced by the transformer is exactly the runes numbered
`i` to `j - 1` of the source, never the bytes at those indices: for any
in-range span the output is `take i ++ replacement ++ drop j` over runes, the
unicode example `ábcd` with span `[1,2) → "B"` yields `áBcd`, while splicing
at byte positions 1–2 of the UTF-8 encoding would cut the two-byte character
`á` apart and not produce the encoding of `áBcd`. -/
theorem claim_C7_rune_spans (s : List Char) (i j : Nat) (r : List Char)
    (h1 : i ≤ j) (h2 : j ≤ s.length) :
    transform [⟨⟨i, j⟩, r⟩] s = .ok (s.take i ++ r ++ s.drop j) ∧
      transform [⟨⟨1, 2⟩, "B".toList⟩] "ábcd".toList = .ok "áBcd".toList ∧
      byteSplice (utf8Str "ábcd".toList) 1 2 (utf8Str "B".toList) ≠
        utf8Str "áBcd".toList := by
  exact ⟨transform_single s i j r h1 h2, by decide, by decide⟩

theorem claim_C7_witness :
    transform [⟨⟨1, 2⟩, "B".toList⟩] "ábcd".toList =
        .ok (("ábcd".toList).take 1 ++ "B".toList ++ ("ábcd".toList).drop 2) ∧
      transform [⟨⟨1, 2⟩, "B".toList⟩] "ábcd".toList = .ok "áBcd".toList ∧
      byteSplice (utf8Str "ábcd".toList) 1 2 (utf8Str "B".toList) ≠
        utf8Str "áBcd".toList :=
  claim_C7_rune_spans "ábcd".toList 1 2 "B".toList (by decide) (by decide)

/-- C8: at end of input the transformer emits the replacement of a pending
zero-width op whose start equals the total rune count (`Span(4,4).With("$")`
on `abcd` yields `abcd$`), and fails with `span out of range` when a pending
non-insertion op's end exceeds the total rune count. -/
theorem claim_C8_eof_behavior (s r : List Char) (a b : Nat) (rb : List Char)
    (h1 : a < b) (h2 : s.length < b) :
    transform [⟨⟨s.length, s.length⟩, r⟩] s = .ok (s ++ r) ∧
      transform [⟨⟨a, b⟩, rb⟩] s = .error "span out of range" ∧
      transform [⟨⟨4, 4⟩, "$".toList⟩] "abcd".toList = .ok "abcd$".toList := by
  refine ⟨?_, transform_single_oob s a b rb h1 h2, by decide⟩
  have := transform_single s s.length s.length r (le_refl _) (le_refl _)
  simpa using this

theorem claim_C8_witness :
    transform [⟨⟨("abcd".toList).length, ("abcd".toList).length⟩, "$".toList⟩]
        "abcd".toList = .ok ("abcd".toList ++ "$".toList) ∧
      transform [⟨⟨2, 6⟩, "Y".toList⟩] "abcd".toList =
        .error "span out of range" ∧
      transform [⟨⟨4, 4⟩, "$".toList⟩] "abcd".toList = .ok "abcd$".toList :=
  claim_C8_eof_behavior "abcd".toList "$".toList 2 6 "Y".toList
    (by decide) (by decide)

/-- C9: for every valid source and every list of non-overlapping in-range
spans given in any order, `Peek` returns one substring per input span, in the
caller's given order (not sorted order), each equal to the original source
text covered by that span. -/
theorem claim_C9_peek (s : List Char) (sels : List Span)
    (h : selOk 0 s.length (List.insertionSort selLE (withIdx 0 sels)) = true) :
    peek s sels = .ok (sels.map (sliceSel s)) :=
  peek_sound s sels h

theorem claim_C9_witness :
    peek "abcd".toList [⟨3, 4⟩, ⟨1, 3⟩] =
      .ok ([(⟨3, 4⟩ : Span), ⟨1, 3⟩].map (sliceSel "abcd".toList)) :=
  claim_C9_peek "abcd".toList [⟨3, 4⟩, ⟨1, 3⟩] (by decide)

/-- C10: the transformer accepts an empty source stream — the single op
`Span(0,0).With(r)` applied to the empty input succeeds and outputs exactly
`r` — and symmetrically, deleting the whole input with `Span(0, n).With("")`
where `n` is the total rune count yields the empty output. -/
theorem claim_C10_empty_source (r : List Char) (s : List Char) :
    transform [⟨⟨0, 0⟩, r⟩] [] = .ok r ∧
      transform [⟨⟨0, s.length⟩, []⟩] s = .ok [] := by
  constructor
  · simpa using transform_single [] 0 0 r (le_refl 0) (by simp)
  · simpa using transform_single s 0 s.length [] (Nat.zero_le _) (le_refl _)

end YamlEdit
